import Mathlib

/-!
Verification of the `svag-money` library (`createMoneyThings` factory).

The TypeScript source (src/src/index.ts, and the earlier revision in
src/unnamed/part_000) is shallowly embedded here:

* JavaScript numbers are modelled exactly: amounts in cents are `Int`,
  float values are `ℚ`, and values that can be `NaN` or `±Infinity`
  (results of `parseFloat` and subsequent arithmetic) live in `JsVal`.
  Floating-point rounding error and the 2^53 integer limit are not
  modelled; all claims concern amounts in the exact ("reasonable") range.
* Strings are `String` / `List Char`; `s.replace(/x/g, r)` for the
  single-character literal regexes `/\./g` and `/,/g` is `replaceAllCharL`,
  `s.replace(new RegExp(ts, 'g'), '')` is `removeSubstrL` (literal
  semantics; every theorem instantiates `ts` with either a pattern free of
  regex metacharacters, where literal matching coincides with JS, or a
  syntactically invalid pattern, where compilation throws),
  and `s.replace(p, r)` for a plain-string pattern is `replaceFirstL`.
  All three splice the replacement verbatim, whereas JS `replace` first
  applies GetSubstitution to rewrite `$`-patterns in the replacement
  (`$$`, `$&`, ...); the two coincide exactly when the replacement
  contains no `'$'`. The replacements the code supplies itself (`''`,
  `'.'`) are `$`-free; every theorem whose quantifiers reach a
  caller-supplied replacement (the separators in the formatting pass)
  carries a `'$'`-freeness hypothesis.
* `(x).toLocaleString('de-DE')` (default options: up to 3 fraction digits,
  trailing zeros trimmed, groups of three separated by '.') is modelled by
  `toLocaleDECents` on the exact centesimal values that reach it.
-/

/-- Code point of a character, as a `Nat`. -/
def charCode (c : Char) : Nat := c.toNat

/-- JavaScript `\s` (with the `u` flag): the WhiteSpace and LineTerminator
code points used by the validator regex and by `parseFloat`'s leading trim. -/
def isJsWs (c : Char) : Bool :=
  charCode c = 32 || charCode c = 9 || charCode c = 10 || charCode c = 13 ||
  charCode c = 11 || charCode c = 12 || charCode c = 0xA0 || charCode c = 0x1680 ||
  (0x2000 ≤ charCode c && charCode c ≤ 0x200A) || charCode c = 0x2028 ||
  charCode c = 0x2029 || charCode c = 0x202F || charCode c = 0x205F ||
  charCode c = 0x3000 || charCode c = 0xFEFF

/-- JavaScript `\d`: the ASCII digits. -/
def isDigitChar (c : Char) : Bool := 48 ≤ charCode c && charCode c ≤ 57

/-- The decimal digit character for `d < 10` (used to print numbers). -/
def digitChar (d : Nat) : Char :=
  match d with
  | 0 => '0' | 1 => '1' | 2 => '2' | 3 => '3' | 4 => '4'
  | 5 => '5' | 6 => '6' | 7 => '7' | 8 => '8' | 9 => '9'
  | _ => '*'

/-- Structural worker for `natDigits`; the fuel only bounds the recursion
depth and `natDigits` always supplies enough of it. -/
def natDigitsAux : Nat → Nat → List Char
  | 0, _ => []
  | fuel + 1, m =>
    if m < 10 then [digitChar m] else natDigitsAux fuel (m / 10) ++ [digitChar (m % 10)]

/-- Decimal digits of a natural number, most significant first
(the digits JavaScript prints for a safe integer). -/
def natDigits (m : Nat) : List Char := natDigitsAux (m + 1) m

/-- Numeric value of a list of digit characters (how `parseFloat`
accumulates a digit run). -/
def digitsVal (l : List Char) : Nat :=
  l.foldl (fun a c => 10 * a + (charCode c - 48)) 0

/-- The last three digits of a larger number, zero padded, as printed
inside a thousands group by `toLocaleString('de-DE')`. -/
def pad3 (r : Nat) : List Char :=
  [digitChar (r / 100), digitChar (r / 10 % 10), digitChar (r % 10)]

/-- Structural worker for `groupThousands`; the fuel only bounds the
recursion depth and `groupThousands` always supplies enough of it. -/
def groupThousandsAux : Nat → Nat → List Char
  | 0, _ => []
  | fuel + 1, m =>
    if m < 1000 then natDigits m else groupThousandsAux fuel (m / 1000) ++ '.' :: pad3 (m % 1000)

/-- Digits of `m` in groups of three separated by `'.'`, as
`toLocaleString('de-DE')` renders the integer part. -/
def groupThousands (m : Nat) : List Char := groupThousandsAux (m + 1) m

/-- The two digit characters of `f < 100`, zero padded. -/
def twoDigL (f : Nat) : List Char := [digitChar (f / 10), digitChar (f % 10)]

/-- Fractional part that `toLocaleString('de-DE')` prints for a value with
cent fraction `f = |cents| % 100`: nothing when zero, one digit when the
trailing digit is zero (trailing zeros are trimmed), else two digits. -/
def decPartL (f : Nat) : List Char :=
  if f = 0 then [] else if f % 10 = 0 then [',', digitChar (f / 10)] else ',' :: twoDigL f

/-- Leading "-" of a negative amount. -/
def signL (n : Int) : List Char := if n < 0 then ['-'] else []

/-- Model of `(cents / 100).toLocaleString('de-DE')` for an exact integer
number of cents: sign, grouped integer part, trimmed fraction. -/
def toLocaleDECents (cents : Int) : List Char :=
  signL cents ++ groupThousands (cents.natAbs / 100) ++ decPartL (cents.natAbs % 100)

/-- A JavaScript number that may be `NaN` or infinite (the possible results
of `parseFloat` and arithmetic on them). -/
inductive JsVal where
  | nan : JsVal
  | posInf : JsVal
  | negInf : JsVal
  | fin : ℚ → JsVal
deriving DecidableEq

/-- JavaScript `Math.round`: half rounds toward positive infinity.
`q + 1/2` is written as the ratio `(2*num + den) / (2*den)` and the floor
as `Rat.floor` so that the definition stays kernel-computable
(`Rat.add`/`Rat.div` are `@[irreducible]`); `jsRound_def` restates it as
`⌊q + 1/2⌋`. -/
def jsRound (q : ℚ) : Int := (mkRat (2 * q.num + (q.den : Int)) (2 * q.den)).floor

theorem jsRound_def (q : ℚ) : jsRound q = ⌊q + 1 / 2⌋ := by
  unfold jsRound
  rw [Rat.floor_def', Rat.floor_def]
  have hden : ((q.den : ℚ)) ≠ 0 := Nat.cast_ne_zero.mpr q.den_nz
  have hq : (q.num : ℚ) = q * (q.den : ℚ) :=
    (div_eq_iff hden).mp (Rat.num_div_den q)
  have hval : (mkRat (2 * q.num + (q.den : Int)) (2 * q.den)) = q + 1 / 2 := by
    rw [Rat.mkRat_eq_div]
    push_cast
    field_simp
    rw [hq]
    ring
  rw [hval]

/-- Unary minus on a JavaScript number. -/
def JsVal.neg : JsVal → JsVal
  | nan => nan
  | posInf => negInf
  | negInf => posInf
  | fin q => fin (-q)

/-- Multiplication by 100 (`parseFloat(...) * 100`); `NaN` and infinities
propagate. `q * 100` is written on the numerator so the kernel can
evaluate it; `times100_fin` restates it as multiplication. -/
def JsVal.times100 : JsVal → JsVal
  | nan => nan
  | posInf => posInf
  | negInf => negInf
  | fin q => fin (mkRat (q.num * 100) q.den)

/-- Division by 100 (`integerWithDecimalsToFloatNumber` applied to a
possibly non-finite value); `NaN` and infinities propagate. `q / 100` is
written on the denominator so the kernel can evaluate it; `div100_fin`
restates it as division. -/
def JsVal.div100 : JsVal → JsVal
  | nan => nan
  | posInf => posInf
  | negInf => negInf
  | fin q => fin (mkRat q.num (q.den * 100))

theorem mkRat_num_mul100 (q : ℚ) : mkRat (q.num * 100) q.den = q * 100 := by
  rw [Rat.mkRat_eq_div]
  push_cast
  rw [mul_div_right_comm, Rat.num_div_den]

theorem mkRat_den_mul100 (q : ℚ) : mkRat q.num (q.den * 100) = q / 100 := by
  rw [Rat.mkRat_eq_div]
  push_cast
  rw [← div_div, Rat.num_div_den]

theorem times100_fin (q : ℚ) : (JsVal.fin q).times100 = .fin (q * 100) := by
  rw [JsVal.times100, mkRat_num_mul100]

theorem div100_fin (q : ℚ) : (JsVal.fin q).div100 = .fin (q / 100) := by
  rw [JsVal.div100, mkRat_den_mul100]

/-- `Math.round` on a JavaScript number: `NaN` and infinities are returned
unchanged. -/
def JsVal.roundJs : JsVal → JsVal
  | nan => nan
  | posInf => posInf
  | negInf => negInf
  | fin q => fin ((jsRound q : Int) : ℚ)

/-- `integerWithDecimalsToFloatNumber`: divide the cent amount by 100. -/
def integerWithDecimalsToFloatNumber (integerWithDecimals : Int) : ℚ :=
  (integerWithDecimals : ℚ) / 100

/-- `floatNumberToIntegerWithDecimals`: `Math.round(number * 100)`. -/
def floatNumberToIntegerWithDecimals (number : ℚ) : Int :=
  jsRound (number * 100)

theorem natDigitsAux_stable (fuel m : Nat) (h : m < fuel) :
    natDigitsAux fuel m = natDigitsAux (m + 1) m := by
  induction fuel using Nat.strong_induction_on generalizing m with
  | _ fuel ih =>
    cases fuel with
    | zero => omega
    | succ f =>
      by_cases h10 : m < 10
      · simp [natDigitsAux, h10]
      · simp only [natDigitsAux, if_neg h10]
        rw [ih f (by omega) (m / 10) (by omega), ih m (by omega) (m / 10) (by omega)]

theorem natDigits_eq (m : Nat) :
    natDigits m = if m < 10 then [digitChar m] else natDigits (m / 10) ++ [digitChar (m % 10)] := by
  show natDigitsAux (m + 1) m = _
  by_cases h10 : m < 10
  · simp [natDigitsAux, h10]
  · simp only [natDigitsAux, if_neg h10]
    rw [natDigitsAux_stable m (m / 10) (by omega)]
    rfl

theorem groupThousandsAux_stable (fuel m : Nat) (h : m < fuel) :
    groupThousandsAux fuel m = groupThousandsAux (m + 1) m := by
  induction fuel using Nat.strong_induction_on generalizing m with
  | _ fuel ih =>
    cases fuel with
    | zero => omega
    | succ f =>
      by_cases h1000 : m < 1000
      · simp [groupThousandsAux, h1000]
      · simp only [groupThousandsAux, if_neg h1000]
        rw [ih f (by omega) (m / 1000) (by omega), ih m (by omega) (m / 1000) (by omega)]

theorem groupThousands_eq (m : Nat) :
    groupThousands m =
      if m < 1000 then natDigits m
      else groupThousands (m / 1000) ++ '.' :: pad3 (m % 1000) := by
  show groupThousandsAux (m + 1) m = _
  by_cases h1000 : m < 1000
  · simp [groupThousandsAux, h1000]
  · simp only [groupThousandsAux, if_neg h1000]
    rw [groupThousandsAux_stable m (m / 1000) (by omega)]
    rfl

theorem digitChar_code {d : Nat} (h : d < 10) : charCode (digitChar d) = 48 + d := by
  interval_cases d <;> rfl

theorem digitChar_isDigit {d : Nat} (h : d < 10) : isDigitChar (digitChar d) = true := by
  interval_cases d <;> rfl

theorem natDigits_ne_nil (m : Nat) : natDigits m ≠ [] := by
  rw [natDigits_eq]
  split
  · simp
  · simp

theorem natDigits_all_digit (m : Nat) : ∀ c ∈ natDigits m, isDigitChar c = true := by
  induction m using Nat.strong_induction_on with
  | _ m ih =>
    rw [natDigits_eq]
    split
    · next h =>
      intro c hc
      simp only [List.mem_singleton] at hc
      subst hc
      exact digitChar_isDigit h
    · next h =>
      intro c hc
      rcases List.mem_append.1 hc with h1 | h2
      · exact ih (m / 10) (by omega) c h1
      · simp only [List.mem_singleton] at h2
        subst h2
        exact digitChar_isDigit (by omega)

theorem digitsVal_append_single (a : List Char) (c : Char) :
    digitsVal (a ++ [c]) = 10 * digitsVal a + (charCode c - 48) := by
  simp [digitsVal, List.foldl_append]

theorem digitsVal_natDigits (m : Nat) : digitsVal (natDigits m) = m := by
  induction m using Nat.strong_induction_on with
  | _ m ih =>
    rw [natDigits_eq]
    split
    · next h =>
      simp [digitsVal, digitChar_code h]
    · next h =>
      rw [digitsVal_append_single, ih (m / 10) (by omega), digitChar_code (by omega)]
      omega

theorem digitsVal_twoDigL {f : Nat} (h : f < 100) : digitsVal (twoDigL f) = f := by
  simp only [twoDigL, digitsVal, List.foldl]
  rw [digitChar_code (by omega), digitChar_code (by omega)]
  omega

theorem jsRound_int_add_half (k : Int) : jsRound ((k : ℚ)) = k := by
  rw [jsRound_def, Int.floor_int_add]
  norm_num

theorem floor_rat_half : ⌊(1 / 2 : ℚ)⌋ = 0 := by
  norm_num

/-- Claim C9: the integer-to-float-to-integer composition is the identity:
`floatNumberToIntegerWithDecimals (integerWithDecimalsToFloatNumber n) = n`
for every integer `n`, under the exact arithmetic of the embedding. -/
theorem floatNumber_integerWithDecimals_roundtrip (n : Int) :
    floatNumberToIntegerWithDecimals (integerWithDecimalsToFloatNumber n) = n := by
  unfold floatNumberToIntegerWithDecimals integerWithDecimalsToFloatNumber
  rw [div_mul_cancel₀ _ (by norm_num : (100 : ℚ) ≠ 0)]
  exact jsRound_int_add_half n

/-- Does `p` occur at the head of the list? (helper for plain-string and
single-character-regex replacement). -/
def leadsWith : List Char → List Char → Bool
  | [], _ => true
  | _ :: _, [] => false
  | p :: ps, c :: cs => p == c && leadsWith ps cs

/-- Model of `s.replace(/x/g, r)` for a single-character literal regex `x`
(the source only uses `/\./g` and `/,/g`): every occurrence of `x` is
replaced by `r`, without rescanning the replacement. -/
def replaceAllCharL (x : Char) (r : List Char) : List Char → List Char
  | [] => []
  | c :: cs => (if c = x then r else [c]) ++ replaceAllCharL x r cs

/-- Structural worker for `removeSubstrGo`; the fuel only bounds the
recursion depth and is always supplied in excess of the list length. -/
def removeSubstrGoAux (p : List Char) : Nat → List Char → List Char
  | 0, _ => []
  | _ + 1, [] => []
  | fuel + 1, c :: cs =>
    if leadsWith p (c :: cs) then removeSubstrGoAux p fuel (cs.drop (p.length - 1))
    else c :: removeSubstrGoAux p fuel cs

/-- Worker for `removeSubstrL`: delete every (leftmost, non-overlapping)
occurrence of the nonempty pattern `p`. -/
def removeSubstrGo (p : List Char) (l : List Char) : List Char :=
  removeSubstrGoAux p (l.length + 1) l

/-- Model of `s.replace(new RegExp(p, 'g'), '')` for a pattern `p` that
matches literally (every pattern a theorem feeds here is free of regex
metacharacters). An empty pattern leaves the string unchanged, as in JS. -/
def removeSubstrL (p : List Char) (l : List Char) : List Char :=
  if p.isEmpty then l else removeSubstrGo p l

/-- Worker for `replaceFirstL`: replace the leftmost occurrence of the
nonempty pattern `p` by `r`. -/
def replaceFirstGo (p r : List Char) : List Char → List Char
  | [] => []
  | c :: cs =>
    if leadsWith p (c :: cs) then r ++ cs.drop (p.length - 1)
    else c :: replaceFirstGo p r cs

/-- Model of `s.replace(p, r)` with a plain-string pattern `p`: only the
first occurrence is replaced; an empty pattern matches at position 0. -/
def replaceFirstL (p r l : List Char) : List Char :=
  if p.isEmpty then r ++ l else replaceFirstGo p r l

theorem replaceAllCharL_append (x : Char) (r a b : List Char) :
    replaceAllCharL x r (a ++ b) = replaceAllCharL x r a ++ replaceAllCharL x r b := by
  induction a with
  | nil => rfl
  | cons c cs ih => simp [replaceAllCharL, ih]

theorem replaceAllCharL_self (x : Char) (l : List Char) :
    replaceAllCharL x [x] l = l := by
  induction l with
  | nil => rfl
  | cons c cs ih =>
    by_cases h : c = x <;> simp [replaceAllCharL, h, ih]

theorem replaceAllCharL_of_not_mem {x : Char} {l : List Char} (h : x ∉ l) (r : List Char) :
    replaceAllCharL x r l = l := by
  induction l with
  | nil => rfl
  | cons c cs ih =>
    simp only [List.mem_cons, not_or] at h
    have hcx : ¬c = x := fun hc => h.1 hc.symm
    simp [replaceAllCharL, hcx, ih h.2]

theorem mem_replaceAllCharL {x c : Char} {r l : List Char}
    (h : c ∈ replaceAllCharL x r l) : c ∈ r ∨ (c ∈ l ∧ c ≠ x) := by
  induction l with
  | nil => simp [replaceAllCharL] at h
  | cons d ds ih =>
    simp only [replaceAllCharL, List.mem_append] at h
    rcases h with h | h
    · by_cases hd : d = x
      · rw [if_pos hd] at h
        exact Or.inl h
      · rw [if_neg hd, List.mem_singleton] at h
        subst h
        exact Or.inr ⟨List.mem_cons_self _ _, hd⟩
    · rcases ih h with h | ⟨h1, h2⟩
      · exact Or.inl h
      · exact Or.inr ⟨List.mem_cons_of_mem _ h1, h2⟩

theorem leadsWith_single (x c : Char) (cs : List Char) :
    leadsWith [x] (c :: cs) = (x == c) := by
  simp [leadsWith]

theorem removeSubstrGoAux_stable (p : List Char) (fuel : Nat) (l : List Char)
    (h : l.length < fuel) :
    removeSubstrGoAux p fuel l = removeSubstrGoAux p (l.length + 1) l := by
  induction fuel using Nat.strong_induction_on generalizing l with
  | _ fuel ih =>
    cases fuel with
    | zero => omega
    | succ f =>
      cases l with
      | nil => rfl
      | cons c cs =>
        simp only [List.length_cons] at h ⊢
        by_cases hp : leadsWith p (c :: cs)
        · simp only [removeSubstrGoAux, if_pos hp]
          rw [ih f (by omega) _ (by simp only [List.length_drop]; omega),
            ih (cs.length + 1) (by omega) _ (by simp only [List.length_drop]; omega)]
        · simp only [removeSubstrGoAux, if_neg hp]
          rw [ih f (by omega) cs (by omega), ih (cs.length + 1) (by omega) cs (by omega)]

theorem removeSubstrGo_nil (p : List Char) : removeSubstrGo p [] = [] := rfl

theorem removeSubstrGo_cons (p : List Char) (c : Char) (cs : List Char) :
    removeSubstrGo p (c :: cs) =
      if leadsWith p (c :: cs) then removeSubstrGo p (cs.drop (p.length - 1))
      else c :: removeSubstrGo p cs := by
  show removeSubstrGoAux p ((c :: cs).length + 1) (c :: cs) = _
  simp only [List.length_cons]
  by_cases hp : leadsWith p (c :: cs)
  · simp only [removeSubstrGoAux, if_pos hp]
    rw [removeSubstrGoAux_stable p (cs.length + 1) _ (by simp only [List.length_drop]; omega)]
    rfl
  · simp only [removeSubstrGoAux, if_neg hp]
    rw [removeSubstrGoAux_stable p (cs.length + 1) cs (by omega)]
    rfl

theorem removeSubstrGo_single_cons (x c : Char) (cs : List Char) :
    removeSubstrGo [x] (c :: cs) =
      if c = x then removeSubstrGo [x] cs else c :: removeSubstrGo [x] cs := by
  rw [removeSubstrGo_cons, leadsWith_single]
  by_cases h : c = x
  · simp [h]
  · have hx : (x == c) = false := by
      simp only [beq_eq_false_iff_ne, ne_eq]
      exact fun hx => h hx.symm
    simp [hx, h]

theorem removeSubstrGo_single_append (x : Char) (a b : List Char) :
    removeSubstrGo [x] (a ++ b) = removeSubstrGo [x] a ++ removeSubstrGo [x] b := by
  induction a with
  | nil => simp [removeSubstrGo_nil]
  | cons c cs ih =>
    rw [List.cons_append, removeSubstrGo_single_cons, removeSubstrGo_single_cons]
    by_cases h : c = x <;> simp [h, ih]

theorem removeSubstrGo_single_of_not_mem {x : Char} {l : List Char} (h : x ∉ l) :
    removeSubstrGo [x] l = l := by
  induction l with
  | nil => exact removeSubstrGo_nil _
  | cons c cs ih =>
    simp only [List.mem_cons, not_or] at h
    rw [removeSubstrGo_single_cons, if_neg (fun hc : c = x => h.1 hc.symm), ih h.2]

theorem replaceFirstGo_of_not_mem {x : Char} {l : List Char} (h : x ∉ l) (r : List Char) :
    replaceFirstGo [x] r l = l := by
  induction l with
  | nil => rfl
  | cons c cs ih =>
    simp only [List.mem_cons, not_or] at h
    rw [replaceFirstGo, leadsWith_single]
    simp only [beq_iff_eq]
    rw [if_neg (fun hc : x = c => h.1 hc), ih h.2]

theorem replaceFirstGo_single_append {x : Char} {a : List Char} (h : x ∉ a) (r b : List Char) :
    replaceFirstGo [x] r (a ++ x :: b) = a ++ r ++ b := by
  induction a with
  | nil =>
    rw [List.nil_append, replaceFirstGo, leadsWith_single]
    simp
  | cons c cs ih =>
    simp only [List.mem_cons, not_or] at h
    rw [List.cons_append, replaceFirstGo, leadsWith_single]
    simp only [beq_iff_eq]
    rw [if_neg (fun hc : x = c => h.1 hc)]
    simp [ih h.2]

theorem takeWhile_append_all {p : Char → Bool} {a : List Char}
    (h : ∀ c ∈ a, p c = true) (b : List Char) :
    (a ++ b).takeWhile p = a ++ b.takeWhile p := by
  induction a with
  | nil => rfl
  | cons c cs ih =>
    rw [List.cons_append, List.takeWhile_cons, if_pos (h c (List.mem_cons_self _ _)),
      ih (fun d hd => h d (List.mem_cons_of_mem _ hd))]
    rfl

theorem dropWhile_append_all {p : Char → Bool} {a : List Char}
    (h : ∀ c ∈ a, p c = true) (b : List Char) :
    (a ++ b).dropWhile p = b.dropWhile p := by
  induction a with
  | nil => rfl
  | cons c cs ih =>
    rw [List.cons_append, List.dropWhile_cons, if_pos (h c (List.mem_cons_self _ _)),
      ih (fun d hd => h d (List.mem_cons_of_mem _ hd))]

theorem takeWhile_all {p : Char → Bool} {a : List Char} (h : ∀ c ∈ a, p c = true) :
    a.takeWhile p = a := by
  have := takeWhile_append_all h []
  simpa using this

theorem dropWhile_all {p : Char → Bool} {a : List Char} (h : ∀ c ∈ a, p c = true) :
    a.dropWhile p = [] := by
  have := dropWhile_append_all h []
  simpa using this

/-- Model of `amountNiceString.split(',')` restricted to the first two
array entries, as consumed by the destructuring
`const [nondecimals, decimals] = amountNiceString.split(',')`. -/
def jsSplitDec (l : List Char) : List Char × Option (List Char) :=
  let nond := l.takeWhile (fun c => c != ',')
  match l.dropWhile (fun c => c != ',') with
  | [] => (nond, none)
  | _ :: r => (nond, some (r.takeWhile (fun c => c != ',')))

/-- The three decimal-display policies. -/
inductive DecimalPolicy where
  | hideIfZero : DecimalPolicy
  | showAlways : DecimalPolicy
  | hideAlways : DecimalPolicy
deriving DecidableEq

/-- The `amountNiceSuitableString` IIFE of `integerWithDecimalsToAmountString`
(src/src/index.ts): adjust the fractional part of the de-DE-localized string
according to the decimal policy. JS `if (!decimals)` is true for both a
missing and an empty second split component. -/
def applyPolicy (decimalPolicy : DecimalPolicy) (l : List Char) : List Char :=
  let nond := (jsSplitDec l).1
  match decimalPolicy with
  | .showAlways =>
    match (jsSplitDec l).2 with
    | none => l ++ [',', '0', '0']
    | some d =>
      if d.isEmpty then l ++ [',', '0', '0']
      else if d.length = 1 then l ++ ['0']
      else nond ++ ',' :: d.take 2
  | .hideAlways => nond
  | .hideIfZero =>
    match (jsSplitDec l).2 with
    | none => nond
    | some d =>
      if d.isEmpty then nond
      else if d.length = 1 then l ++ ['0']
      else nond ++ ',' :: d.take 2

/-- `integerWithDecimalsToAmountString` (src/src/index.ts, current
revision), on character lists: localize the float `amount / 100` in de-DE
format, fix up the fractional part per the decimal policy, then globally
replace `'.'` by the thousands separator and `','` by the decimal point. -/
def integerWithDecimalsToAmountStringL (amount : Int)
    (decimalPoint thousandsSeparator : List Char)
    (decimalPolicy : DecimalPolicy) : List Char :=
  replaceAllCharL ',' decimalPoint
    (replaceAllCharL '.' thousandsSeparator
      (applyPolicy decimalPolicy (toLocaleDECents amount)))

/-- `integerWithDecimalsToAmountString` on strings. -/
def integerWithDecimalsToAmountString (amount : Int)
    (decimalPoint thousandsSeparator : String)
    (decimalPolicy : DecimalPolicy) : String :=
  String.mk (integerWithDecimalsToAmountStringL amount decimalPoint.toList
    thousandsSeparator.toList decimalPolicy)

/-- `floatNumberToAmountString`: scale the float to cents, then format. -/
def floatNumberToAmountString (amount : ℚ)
    (decimalPoint thousandsSeparator : String)
    (decimalPolicy : DecimalPolicy) : String :=
  integerWithDecimalsToAmountString (floatNumberToIntegerWithDecimals amount)
    decimalPoint thousandsSeparator decimalPolicy

/-- Rendering pipeline shared by the branches of the earlier revision
(src/unnamed/part_000) of `integerWithDecimalsToAmountString`: localize the
chosen float (given by its exact cent numerator, with an explicit flag for
JavaScript's negative zero, which `toLocaleString` renders as "-0"), then
run the same two global separator replaces. -/
def oldRenderPipeline (decimalPoint thousandsSeparator : List Char)
    (negZero : Bool) (cents : Int) : List Char :=
  replaceAllCharL ',' decimalPoint
    (replaceAllCharL '.' thousandsSeparator
      ((if negZero then ['-'] else []) ++ toLocaleDECents cents))

/-- `integerWithDecimalsToAmountString` from the earlier revision
(src/unnamed/part_000): pick a suitable float first — the raw `amount/100`
for `showAlways`, `Math.round(amount/100)` for `hideAlways`, and for
`hideIfZero` the rounded value exactly when `(amount/100).toFixed(2)` ends
in ".00" (i.e. the cent fraction is zero) — then localize it in de-DE
format and substitute the separators. All floats reaching
`toLocaleString` are exact multiples of 1/100 and are represented by
their cent numerator (`amount` itself, or `100 * Math.round(amount/100)`);
the negative-zero flag records that `Math.round` of a negative float can
be `-0`, which `toLocaleString` renders as "-0". -/
def integerWithDecimalsToAmountStringOldL (amount : Int)
    (decimalPoint thousandsSeparator : List Char)
    (decimalPolicy : DecimalPolicy) : List Char :=
  match decimalPolicy with
  | .showAlways => oldRenderPipeline decimalPoint thousandsSeparator false amount
  | .hideAlways =>
    oldRenderPipeline decimalPoint thousandsSeparator
      (decide ((amount : ℚ) / 100 < 0) && (jsRound ((amount : ℚ) / 100) == 0))
      (100 * jsRound ((amount : ℚ) / 100))
  | .hideIfZero =>
    if !(amount.natAbs % 100 == 0) then
      oldRenderPipeline decimalPoint thousandsSeparator false amount
    else
      oldRenderPipeline decimalPoint thousandsSeparator
        (decide ((amount : ℚ) / 100 < 0) && (jsRound ((amount : ℚ) / 100) == 0))
        (100 * jsRound ((amount : ℚ) / 100))

/-- The earlier revision, on strings. -/
def integerWithDecimalsToAmountStringOld (amount : Int)
    (decimalPoint thousandsSeparator : String)
    (decimalPolicy : DecimalPolicy) : String :=
  String.mk (integerWithDecimalsToAmountStringOldL amount decimalPoint.toList
    thousandsSeparator.toList decimalPolicy)

theorem digit_ne_comma {c : Char} (h : isDigitChar c = true) : c ≠ ',' := by
  intro he
  rw [he] at h
  exact absurd h (by decide)

theorem digit_ne_dot {c : Char} (h : isDigitChar c = true) : c ≠ '.' := by
  intro he
  rw [he] at h
  exact absurd h (by decide)

theorem digit_ne_space {c : Char} (h : isDigitChar c = true) : c ≠ ' ' := by
  intro he
  rw [he] at h
  exact absurd h (by decide)

theorem groupThousands_chars (m : Nat) :
    ∀ c ∈ groupThousands m, isDigitChar c = true ∨ c = '.' := by
  induction m using Nat.strong_induction_on with
  | _ m ih =>
    rw [groupThousands_eq]
    split
    · next h =>
      intro c hc
      exact Or.inl (natDigits_all_digit m c hc)
    · next h =>
      intro c hc
      rcases List.mem_append.1 hc with h1 | h2
      · exact ih (m / 1000) (by omega) c h1
      · rcases List.mem_cons.1 h2 with h3 | h4
        · exact Or.inr h3
        · refine Or.inl ?_
          simp only [pad3, List.mem_cons, List.not_mem_nil, or_false] at h4
          rcases h4 with h5 | h5 | h5 <;> (rw [h5]; exact digitChar_isDigit (by omega))

theorem groupThousands_no_comma (m : Nat) : ∀ c ∈ groupThousands m, c ≠ ',' := by
  intro c hc
  rcases groupThousands_chars m c hc with h | h
  · exact digit_ne_comma h
  · rw [h]
    decide

theorem natDigits_no_dot (m : Nat) : '.' ∉ natDigits m := by
  intro hc
  exact digit_ne_dot (natDigits_all_digit m '.' hc) rfl

theorem natDigits_no_comma (m : Nat) : ',' ∉ natDigits m := by
  intro hc
  exact digit_ne_comma (natDigits_all_digit m ',' hc) rfl

theorem natDigits_no_space (m : Nat) : ' ' ∉ natDigits m := by
  intro hc
  exact digit_ne_space (natDigits_all_digit m ' ' hc) rfl

theorem signL_no_comma (n : Int) : ∀ c ∈ signL n, c ≠ ',' := by
  intro c hc
  unfold signL at hc
  split at hc
  · simp only [List.mem_singleton] at hc
    rw [hc]
    decide
  · simp at hc

theorem bne_comma_true {c : Char} (h : c ≠ ',') : (c != ',') = true := by
  simpa using h

theorem jsSplitDec_no_comma {l : List Char} (h : ∀ c ∈ l, c ≠ ',') :
    jsSplitDec l = (l, none) := by
  simp only [jsSplitDec]
  rw [takeWhile_all (fun c hc => bne_comma_true (h c hc)),
    dropWhile_all (fun c hc => bne_comma_true (h c hc))]

theorem jsSplitDec_comma {a b : List Char} (ha : ∀ c ∈ a, c ≠ ',')
    (hb : ∀ c ∈ b, c ≠ ',') :
    jsSplitDec (a ++ ',' :: b) = (a, some b) := by
  simp only [jsSplitDec]
  rw [takeWhile_append_all (fun c hc => bne_comma_true (ha c hc)),
    dropWhile_append_all (fun c hc => bne_comma_true (ha c hc))]
  rw [List.takeWhile_cons, List.dropWhile_cons]
  simp only [bne_self_eq_false, Bool.false_eq_true, if_false]
  rw [takeWhile_all (fun c hc => bne_comma_true (hb c hc)), List.append_nil]

theorem intPart_no_comma (n : Int) :
    ∀ c ∈ signL n ++ groupThousands (n.natAbs / 100), c ≠ ',' := by
  intro c hc
  rcases List.mem_append.1 hc with h | h
  · exact signL_no_comma n c h
  · exact groupThousands_no_comma _ c h

theorem toLocaleDECents_split (n : Int) :
    toLocaleDECents n =
      (signL n ++ groupThousands (n.natAbs / 100)) ++ decPartL (n.natAbs % 100) := by
  unfold toLocaleDECents
  rw [List.append_assoc]

theorem applyPolicy_hideAlways (n : Int) :
    applyPolicy .hideAlways (toLocaleDECents n) =
      signL n ++ groupThousands (n.natAbs / 100) := by
  simp only [applyPolicy]
  by_cases hf : n.natAbs % 100 = 0
  · have hdec : decPartL (n.natAbs % 100) = [] := by rw [hf]; rfl
    rw [toLocaleDECents_split n, hdec, List.append_nil,
      jsSplitDec_no_comma (intPart_no_comma n)]
  · by_cases hf10 : n.natAbs % 100 % 10 = 0
    · have hdec : decPartL (n.natAbs % 100) = ',' :: [digitChar (n.natAbs % 100 / 10)] := by
        rw [decPartL, if_neg hf, if_pos hf10]
      rw [toLocaleDECents_split n, hdec,
        jsSplitDec_comma (intPart_no_comma n) (by
          intro c hc
          simp only [List.mem_singleton] at hc
          rw [hc]
          exact digit_ne_comma (digitChar_isDigit (by omega)))]
    · have hdec : decPartL (n.natAbs % 100) = ',' :: twoDigL (n.natAbs % 100) := by
        rw [decPartL, if_neg hf, if_neg hf10]
      rw [toLocaleDECents_split n, hdec,
        jsSplitDec_comma (intPart_no_comma n) (by
          intro c hc
          simp only [twoDigL, List.mem_cons, List.not_mem_nil, or_false] at hc
          rcases hc with h | h <;> (rw [h]; exact digit_ne_comma (digitChar_isDigit (by omega))))]

theorem digitChar_ne_comma (d : Nat) : digitChar d ≠ ',' := by
  unfold digitChar
  split <;> decide

theorem twoDigL_no_comma (f : Nat) : ∀ c ∈ twoDigL f, c ≠ ',' := by
  intro c hc
  simp only [twoDigL, List.mem_cons, List.not_mem_nil, or_false] at hc
  rcases hc with h | h <;> (rw [h]; exact digitChar_ne_comma _)

theorem applyPolicy_showAlways (n : Int) :
    applyPolicy .showAlways (toLocaleDECents n) =
      signL n ++ groupThousands (n.natAbs / 100) ++ ',' :: twoDigL (n.natAbs % 100) := by
  simp only [applyPolicy]
  by_cases hf : n.natAbs % 100 = 0
  · have hdec : decPartL (n.natAbs % 100) = [] := by rw [hf]; rfl
    rw [toLocaleDECents_split n, hdec, List.append_nil,
      jsSplitDec_no_comma (intPart_no_comma n)]
    simp [hf, twoDigL, digitChar, List.append_assoc]
  · by_cases hf10 : n.natAbs % 100 % 10 = 0
    · have hdec : decPartL (n.natAbs % 100) = ',' :: [digitChar (n.natAbs % 100 / 10)] := by
        rw [decPartL, if_neg hf, if_pos hf10]
      rw [toLocaleDECents_split n, hdec,
        jsSplitDec_comma (intPart_no_comma n) (by
          intro c hc
          simp only [List.mem_singleton] at hc
          rw [hc]
          exact digitChar_ne_comma _)]
      simp [twoDigL, hf10, digitChar, List.append_assoc]
    · have hdec : decPartL (n.natAbs % 100) = ',' :: twoDigL (n.natAbs % 100) := by
        rw [decPartL, if_neg hf, if_neg hf10]
      rw [toLocaleDECents_split n, hdec,
        jsSplitDec_comma (intPart_no_comma n) (twoDigL_no_comma _)]
      simp [twoDigL, List.append_assoc]

theorem applyPolicy_hideIfZero (n : Int) :
    applyPolicy .hideIfZero (toLocaleDECents n) =
      signL n ++ groupThousands (n.natAbs / 100) ++
        (if n.natAbs % 100 = 0 then [] else ',' :: twoDigL (n.natAbs % 100)) := by
  simp only [applyPolicy]
  by_cases hf : n.natAbs % 100 = 0
  · have hdec : decPartL (n.natAbs % 100) = [] := by rw [hf]; rfl
    rw [toLocaleDECents_split n, hdec, List.append_nil,
      jsSplitDec_no_comma (intPart_no_comma n)]
    simp [hf]
  · by_cases hf10 : n.natAbs % 100 % 10 = 0
    · have hdec : decPartL (n.natAbs % 100) = ',' :: [digitChar (n.natAbs % 100 / 10)] := by
        rw [decPartL, if_neg hf, if_pos hf10]
      rw [toLocaleDECents_split n, hdec,
        jsSplitDec_comma (intPart_no_comma n) (by
          intro c hc
          simp only [List.mem_singleton] at hc
          rw [hc]
          exact digitChar_ne_comma _)]
      simp [twoDigL, hf, hf10, digitChar, List.append_assoc]
    · have hdec : decPartL (n.natAbs % 100) = ',' :: twoDigL (n.natAbs % 100) := by
        rw [decPartL, if_neg hf, if_neg hf10]
      rw [toLocaleDECents_split n, hdec,
        jsSplitDec_comma (intPart_no_comma n) (twoDigL_no_comma _)]
      simp [twoDigL, hf, List.append_assoc]

/-- Is the list headed by the characters of "Infinity"? (`parseFloat`
accepts it after the optional sign). -/
def infinityLead (l : List Char) : Bool :=
  decide (l.take 8 = ['I', 'n', 'f', 'i', 'n', 'i', 't', 'y'])

/-- Exponent part of a JavaScript float literal: `e`/`E`, an optional sign
and a digit run. A missing or digitless exponent contributes 0, matching
`parseFloat`, which then simply stops consuming input. -/
def parseExp (l : List Char) : Int :=
  if l.head? = some 'e' ∨ l.head? = some 'E' then
    let t := l.tail
    if t.head? = some '+' then (digitsVal (t.tail.takeWhile isDigitChar) : Int)
    else if t.head? = some '-' then -(digitsVal (t.tail.takeWhile isDigitChar) : Int)
    else (digitsVal (t.takeWhile isDigitChar) : Int)
  else 0

/-- The value `(ip + fp/10^|fp|) * 10^e` of a decimal literal with integer
digits `ip`, fraction digits `fp` and exponent `e`, written as a single
integer ratio so the kernel can evaluate it; `decimalValue_eq` restates it
arithmetically. -/
def decimalValue (ip fp : List Char) (e : Int) : ℚ :=
  let num : Int := (digitsVal ip : Int) * 10 ^ fp.length + (digitsVal fp : Int)
  if 0 ≤ e then mkRat (num * 10 ^ e.toNat) (10 ^ fp.length)
  else mkRat num (10 ^ fp.length * 10 ^ (-e).toNat)

theorem decimalValue_eq (ip fp : List Char) (e : Int) :
    decimalValue ip fp e =
      ((digitsVal ip : ℚ) + (digitsVal fp : ℚ) / (10 : ℚ) ^ fp.length) * (10 : ℚ) ^ e := by
  have hpow : ((10 : ℚ) ^ fp.length) ≠ 0 := pow_ne_zero _ (by norm_num)
  unfold decimalValue
  by_cases he : 0 ≤ e
  · rw [if_pos he, Rat.mkRat_eq_div]
    push_cast
    rw [show ((10 : ℚ) ^ e) = (10 : ℚ) ^ (e.toNat : Int) by rw [Int.toNat_of_nonneg he],
      zpow_natCast]
    field_simp
    try ring
  · rw [if_neg he, Rat.mkRat_eq_div]
    push_cast
    have h1 : (10 : ℚ) ^ e = ((10 : ℚ) ^ ((-e).toNat : ℕ))⁻¹ := by
      have he' : e = -(((-e).toNat : ℕ) : ℤ) := by omega
      conv_lhs => rw [he']
      rw [zpow_neg, zpow_natCast]
    rw [h1]
    field_simp
    try ring

/-- `parseFloat` after the optional sign: "Infinity", or an integer digit
run, an optional '.' plus fractional digit run, and an optional exponent;
`NaN` when no digit was consumed. Trailing garbage is ignored. -/
def parseFloatUnsigned (l : List Char) : JsVal :=
  if infinityLead l then JsVal.posInf
  else
    let ip := l.takeWhile isDigitChar
    let r1 := l.dropWhile isDigitChar
    let fp := if r1.head? = some '.' then r1.tail.takeWhile isDigitChar else []
    let r2 := if r1.head? = some '.' then r1.tail.dropWhile isDigitChar else r1
    if ip.isEmpty && fp.isEmpty then JsVal.nan
    else JsVal.fin (decimalValue ip fp (parseExp r2))

/-- JavaScript `parseFloat` on a character list: skip leading whitespace,
read an optional sign, then the unsigned body. -/
def parseFloatL (l : List Char) : JsVal :=
  let t := l.dropWhile isJsWs
  if t.head? = some '+' then parseFloatUnsigned t.tail
  else if t.head? = some '-' then (parseFloatUnsigned t.tail).neg
  else parseFloatUnsigned t

/-- `parseFloat` on strings. -/
def parseFloatJS (s : String) : JsVal := parseFloatL s.toList

/-- `amountStringToIntegerWithDecimals` without the `new RegExp` compilation
step: strip every occurrence of the thousands separator (matched literally),
replace the first occurrence of the decimal point by '.', then
`Math.round(parseFloat(...) * 100)`. -/
def amountStringToIntegerWithDecimalsCore
    (amountString decimalPoint thousandsSeparator : String) : JsVal :=
  ((parseFloatL (replaceFirstL decimalPoint.toList ['.']
    (removeSubstrL thousandsSeparator.toList amountString.toList))).times100).roundJs

/-- `amountStringToFloatNumber` without the regex-compilation step. -/
def amountStringToFloatNumberCore
    (amountString decimalPoint thousandsSeparator : String) : JsVal :=
  (amountStringToIntegerWithDecimalsCore amountString decimalPoint thousandsSeparator).div100

/-- The regex metacharacters of JavaScript pattern syntax; a pattern free
of them matches itself literally. -/
def isRegexOrdinaryChar (c : Char) : Bool :=
  !(c = '\\' || c = '^' || c = '$' || c = '.' || c = '*' || c = '+' || c = '?' ||
    c = '(' || c = ')' || c = '[' || c = ']' || c = '{' || c = '}' || c = '|')

/-- Scanner deciding whether `new RegExp(p)` compiles: tracks group depth
and character-class state, rejecting a trailing backslash, an unmatched
'(' or ')', and an unterminated class — the `SyntaxError` causes relevant
here. (Quantifier-placement errors are not modelled; no theorem
instantiates such patterns.) -/
def regexScan : List Char → Nat → Bool → Bool
  | [], depth, inClass => depth == 0 && !inClass
  | c :: r, depth, inClass =>
    if c = '\\' then
      match r with
      | [] => false
      | _ :: r2 => regexScan r2 depth inClass
    else if inClass then
      if c = ']' then regexScan r depth false else regexScan r depth true
    else if c = '[' then regexScan r depth true
    else if c = '(' then regexScan r (depth + 1) false
    else if c = ')' then
      if depth == 0 then false else regexScan r (depth - 1) false
    else regexScan r depth inClass

/-- Does `new RegExp(p, 'g')` compile without throwing? -/
def regexCompiles (p : String) : Bool := regexScan p.toList 0 false

/-- `amountStringToIntegerWithDecimals` (src/src/index.ts): building
`new RegExp(thousandsSeparator, 'g')` throws a `SyntaxError` (modelled as
`.error ()`) when the separator is not a valid pattern; otherwise the
conversion of `amountStringToIntegerWithDecimalsCore` runs. -/
def amountStringToIntegerWithDecimalsJS
    (amountString decimalPoint thousandsSeparator : String) : Except Unit JsVal :=
  if regexCompiles thousandsSeparator then
    .ok (amountStringToIntegerWithDecimalsCore amountString decimalPoint thousandsSeparator)
  else .error ()

/-- `amountStringToFloatNumber` (src/src/index.ts): converts via
`amountStringToIntegerWithDecimals`, so it throws in exactly the same
cases. -/
def amountStringToFloatNumberJS
    (amountString decimalPoint thousandsSeparator : String) : Except Unit JsVal :=
  if regexCompiles thousandsSeparator then
    .ok (amountStringToFloatNumberCore amountString decimalPoint thousandsSeparator)
  else .error ()

/-- Deterministic matcher for the validator pattern
`^\s*\d(\s*\d*)*(,\d{0,2})?$` built by the factory under its default
decimal point `','` (single character and distinct from `'.'`, so
`escapedDefaultDecimalPoint` is just `','`): after the first digit, consume
whitespace and digits — `(\s*\d*)*` matches exactly the strings over
`[\s\d]` — and on the decimal point require at most two digits and the end
of input. Since `','` is neither `\s` nor `\d`, the regex is unambiguous
and this scan is exact. -/
def matchAmountTail : List Char → Bool
  | [] => true
  | c :: cs =>
    if isJsWs c || isDigitChar c then matchAmountTail cs
    else if c = ',' then cs.all isDigitChar && decide (cs.length ≤ 2)
    else false

/-- `amountStringRegex.test(s)`: optional leading whitespace (`^\s*`), a
mandatory first digit, then `matchAmountTail`. -/
def amountStringRegexMatches (s : String) : Bool :=
  match s.toList.dropWhile isJsWs with
  | [] => false
  | c :: cs => isDigitChar c && matchAmountTail cs

/-- The `.refine` step of `zAmountRaw`:
`parseFloat(value.replace(/\s/g, '').replace(' ', ''))` — all whitespace
removed, then the first occurrence of the default thousands separator
`' '` — must be neither `NaN` nor negative. -/
def zAmountRawRefine (s : String) : Bool :=
  match parseFloatL (replaceFirstL [' '] []
      (s.toList.filter (fun c => !(isJsWs c)))) with
  | .fin q => decide (0 ≤ q)
  | .posInf => true
  | _ => false

/-- Does `zAmountRaw.parse(s)` succeed? Pattern check, then refinement. -/
def zAmountRawAccepts (s : String) : Bool :=
  amountStringRegexMatches s && zAmountRawRefine s

/-- The extra range refinement of `zAmountRawLimited(min, max)`: the float
parsed from the whitespace-stripped raw string (the decimal point is NOT
normalized first) must lie within `[min/100, max/100]`; the bounds are
written via `mkRat` so the kernel can evaluate them (`mkRat_den_mul100`
restates them as `min / 100` and `max / 100`). -/
def zAmountRawLimitedRefine (min max : ℚ) (s : String) : Bool :=
  match parseFloatL (replaceFirstL [' '] []
      (s.toList.filter (fun c => !(isJsWs c)))) with
  | .fin q => decide (mkRat min.num (min.den * 100) ≤ q) &&
      decide (q ≤ mkRat max.num (max.den * 100))
  | .posInf => false
  | _ => false

/-- Does `zAmountRawLimited(min, max).parse(s)` succeed? -/
def zAmountRawLimitedAccepts (min max : ℚ) (s : String) : Bool :=
  zAmountRawAccepts s && zAmountRawLimitedRefine min max s

/-- `zAmountIntegerWithDecimals.parse`: validation, then the transform
`amountStringToIntegerWithDecimals` under the factory defaults
(decimal point `','`, thousands separator `' '`). `none` is a thrown
`ZodError`. -/
def zAmountIntegerWithDecimalsParse (s : String) : Option JsVal :=
  if zAmountRawAccepts s then
    some (amountStringToIntegerWithDecimalsCore s "," " ")
  else none

/-- `zAmountIntegerWithDecimalsLimited(min, max).parse`. -/
def zAmountIntegerWithDecimalsLimitedParse (min max : ℚ) (s : String) : Option JsVal :=
  if zAmountRawLimitedAccepts min max s then
    some (amountStringToIntegerWithDecimalsCore s "," " ")
  else none

/-- The currency codes of the built-in `possibleCurrencySymbolMap`. -/
inductive Currency where
  | usd : Currency
  | rub : Currency
  | gbp : Currency
  | eur : Currency
  | usdt : Currency
deriving DecidableEq

/-- The built-in `possibleCurrencySymbolMap`. -/
def currencySymbolMap : Currency → String
  | .usd => "$"
  | .rub => "₽"
  | .gbp => "£"
  | .eur => "€"
  | .usdt => "₮"

/-- Where the currency symbol goes relative to the amount. -/
inductive SymbolPosition where
  | before : SymbolPosition
  | after : SymbolPosition
deriving DecidableEq

/-- How a numeric `amount` argument is interpreted. -/
inductive AmountType where
  | integerWithDecimals : AmountType
  | floatNumber : AmountType
deriving DecidableEq

/-- `toMoney` (src/src/index.ts) after its three call shapes have been
normalized into one options record (every field explicit here; the factory
defaults of the claims are passed at the call sites): resolve the cent
amount (`Math.round` for a plain number, scaling for a float), format it,
resolve the symbol (explicit `symbol` argument, else the map entry for the
currency), and decorate unless `hideSymbol`. -/
def toMoney (amount : ℚ) (amountType : AmountType) (currency : Currency)
    (decimalPoint thousandsSeparator : String) (decimalPolicy : DecimalPolicy)
    (symbol : Option String) (symbolPosition : SymbolPosition)
    (symbolDelimiter : String) (hideSymbol : Bool) : String :=
  let amountWithDecimals : Int :=
    match amountType with
    | .integerWithDecimals => jsRound amount
    | .floatNumber => floatNumberToIntegerWithDecimals amount
  let amountString := integerWithDecimalsToAmountString amountWithDecimals
    decimalPoint thousandsSeparator decimalPolicy
  let resolvedSymbol := symbol.getD (currencySymbolMap currency)
  if hideSymbol then amountString
  else
    match symbolPosition with
    | .before => resolvedSymbol ++ symbolDelimiter ++ amountString
    | .after => amountString ++ symbolDelimiter ++ resolvedSymbol

theorem digitChar_ne_dot (d : Nat) : digitChar d ≠ '.' := by
  unfold digitChar
  split <;> decide

theorem signL_no_dot (n : Int) : '.' ∉ signL n := by
  unfold signL
  split <;> decide

theorem signL_no_space (n : Int) : ' ' ∉ signL n := by
  unfold signL
  split <;> decide

theorem twoDigL_no_dot (f : Nat) : '.' ∉ twoDigL f := by
  intro hc
  simp only [twoDigL, List.mem_cons, List.not_mem_nil, or_false] at hc
  rcases hc with h | h <;> exact digitChar_ne_dot _ h.symm

theorem comma_twoDigL_no_dot (f : Nat) : '.' ∉ ',' :: twoDigL f := by
  intro hc
  rcases List.mem_cons.1 hc with h | h
  · exact absurd h (by decide)
  · exact twoDigL_no_dot f h

theorem signL_not_mem_comma (n : Int) : ',' ∉ signL n := by
  intro hc
  exact signL_no_comma n ',' hc rfl

/-- After the group separators of `groupThousands m` are substituted by a
comma-free separator, the result contains no comma. -/
theorem replaceDots_no_comma {ts : List Char} (hts : ',' ∉ ts) (m : Nat) :
    ',' ∉ replaceAllCharL '.' ts (groupThousands m) := by
  intro hc
  rcases mem_replaceAllCharL hc with h | ⟨h1, _⟩
  · exact hts h
  · exact groupThousands_no_comma m ',' h1 rfl

/-- Claim C2: the decimal policy drives the fractional part:
`hideIfZero` renders 500 as "5" and 550 as "5,50", `showAlways` renders
500 as "5,00", and `hideAlways` drops the two-digit fraction without
rounding it into the integer part — for every amount the output is the
sign followed by the grouped, truncated integer part `|n| / 100`
(in particular 199 renders as "1", not "2"). -/
theorem decimalPolicy_spec :
    integerWithDecimalsToAmountString 500 "," " " .hideIfZero = "5" ∧
    integerWithDecimalsToAmountString 550 "," " " .hideIfZero = "5,50" ∧
    integerWithDecimalsToAmountString 500 "," " " .showAlways = "5,00" ∧
    integerWithDecimalsToAmountString 199 "," " " .hideAlways = "1" ∧
    ∀ n : Int, integerWithDecimalsToAmountString n "," " " .hideAlways =
      String.mk (signL n ++ replaceAllCharL '.' [' '] (groupThousands (n.natAbs / 100))) := by
  refine ⟨by decide, by decide, by decide, by decide, ?_⟩
  intro n
  unfold integerWithDecimalsToAmountString integerWithDecimalsToAmountStringL
  rw [show (",").toList = [','] from rfl, show ((" ").toList) = [' '] from rfl,
    applyPolicy_hideAlways, replaceAllCharL_append,
    replaceAllCharL_of_not_mem (signL_no_dot n), replaceAllCharL_self]

/-- The separator substitution described by the spec (4.2 step 4): operate
on the split integer/fractional parts directly — the thousands separator is
substituted inside the grouped integer part only, and the decimal point is
inserted only between the integer and fractional parts — so colliding
separator choices cannot corrupt each other. -/
def separatorPreservingRender (amount : Int)
    (decimalPoint thousandsSeparator : String)
    (decimalPolicy : DecimalPolicy) : String :=
  String.mk
    ((signL amount ++
        replaceAllCharL '.' thousandsSeparator.toList (groupThousands (amount.natAbs / 100))) ++
      (match decimalPolicy with
       | .hideAlways => []
       | .showAlways => decimalPoint.toList ++ twoDigL (amount.natAbs % 100)
       | .hideIfZero =>
         if amount.natAbs % 100 = 0 then []
         else decimalPoint.toList ++ twoDigL (amount.natAbs % 100)))

theorem replaceComma_cons_comma (dp l : List Char) (h : ',' ∉ l) :
    replaceAllCharL ',' dp (',' :: l) = dp ++ l := by
  simp [replaceAllCharL, replaceAllCharL_of_not_mem h]

theorem twoDigL_not_mem_comma (f : Nat) : ',' ∉ twoDigL f :=
  fun h => twoDigL_no_comma f ',' h rfl

/-- Claim C3 (amended): the two global replaces substitute the separators
without corruption whenever the requested thousands separator does not
contain `','` — in particular the canonical characters may be reused as
`decimalPoint = "."` or `thousandsSeparator = "."`; but a thousands
separator containing `','` is itself rewritten by the subsequent
decimal-point pass (see the counterexample). The separators are also
required to be free of `'$'`: they are used as `replace` replacement
strings, and only there does the verbatim-splicing model coincide with
JS GetSubstitution (a `'$'`-containing separator such as `"$&"` or
`"$$"` is additionally rewritten by JS before insertion). -/
theorem substitution_uncorrupted (n : Int) (dp ts : String) (p : DecimalPolicy)
    (_hdp : '$' ∉ dp.toList) (_hts : '$' ∉ ts.toList)
    (hts : ',' ∉ ts.toList) :
    integerWithDecimalsToAmountString n dp ts p = separatorPreservingRender n dp ts p := by
  unfold integerWithDecimalsToAmountString integerWithDecimalsToAmountStringL
    separatorPreservingRender
  have hsign_dot := signL_no_dot n
  have hsign_comma := signL_not_mem_comma n
  have hrd := replaceDots_no_comma hts (n.natAbs / 100)
  cases p with
  | hideAlways =>
    rw [applyPolicy_hideAlways, replaceAllCharL_append,
      replaceAllCharL_of_not_mem hsign_dot, replaceAllCharL_append,
      replaceAllCharL_of_not_mem hsign_comma, replaceAllCharL_of_not_mem hrd,
      List.append_nil]
  | showAlways =>
    rw [applyPolicy_showAlways, replaceAllCharL_append, replaceAllCharL_append,
      replaceAllCharL_append,
      replaceAllCharL_of_not_mem hsign_dot,
      replaceAllCharL_of_not_mem (comma_twoDigL_no_dot _),
      replaceAllCharL_append,
      replaceAllCharL_of_not_mem hsign_comma,
      replaceAllCharL_of_not_mem hrd,
      replaceComma_cons_comma _ _ (twoDigL_not_mem_comma _)]
  | hideIfZero =>
    rw [applyPolicy_hideIfZero]
    by_cases hf : n.natAbs % 100 = 0
    · rw [if_pos hf, if_pos hf, List.append_nil, replaceAllCharL_append,
        replaceAllCharL_of_not_mem hsign_dot, replaceAllCharL_append,
        replaceAllCharL_of_not_mem hsign_comma, replaceAllCharL_of_not_mem hrd,
        List.append_nil]
    · rw [if_neg hf, if_neg hf, replaceAllCharL_append, replaceAllCharL_append,
        replaceAllCharL_append,
        replaceAllCharL_of_not_mem hsign_dot,
        replaceAllCharL_of_not_mem (comma_twoDigL_no_dot _),
        replaceAllCharL_append,
        replaceAllCharL_of_not_mem hsign_comma,
        replaceAllCharL_of_not_mem hrd,
        replaceComma_cons_comma _ _ (twoDigL_not_mem_comma _)]

/-- Claim C3 (counterexample): with `thousandsSeparator = ","` and
`decimalPoint = "."` (both reusing canonical intermediate characters),
the sequential global replaces corrupt the output of amount 123456750
(1 234 567.50): the code yields "1.234.567.50" — the requested `','`
separator appears nowhere — instead of the uncorrupted "1,234,567.50". -/
theorem substitution_corrupted_at_123456750 :
    integerWithDecimalsToAmountString 123456750 "." "," .hideIfZero ≠
      separatorPreservingRender 123456750 "." "," .hideIfZero ∧
    integerWithDecimalsToAmountString 123456750 "." "," .hideIfZero = "1.234.567.50" ∧
    separatorPreservingRender 123456750 "." "," .hideIfZero = "1,234,567.50" := by
  refine ⟨by decide, by decide, by decide⟩

/-- Witness for `substitution_uncorrupted` at a concrete input reusing
`'.'` as both separators. -/
theorem substitution_uncorrupted_witness :
    ('$' ∉ (".").toList) ∧ (',' ∉ (".").toList) ∧
    integerWithDecimalsToAmountString 123456750 "." "." .showAlways =
      separatorPreservingRender 123456750 "." "." .showAlways :=
  ⟨by decide, by decide,
    substitution_uncorrupted 123456750 "." "." .showAlways (by decide) (by decide) (by decide)⟩

/-- Claim C7: `toMoney` decorates the formatted amount with the resolved
currency symbol in the order given by `symbolPosition`, joined by
`symbolDelimiter` (the bare amount string is the `hideSymbol` rendering);
with the factory default currency `usd` and the built-in symbol map,
`toMoney(1500)` is "$15", and
`toMoney(1550, {currency: 'eur', symbolPosition: 'after',
symbolDelimiter: ' '})` is "15,50 €". -/
theorem toMoney_symbol_decoration :
    (∀ (a : ℚ) (t : AmountType) (c : Currency) (dp ts : String) (p : DecimalPolicy)
        (sym : Option String) (delim : String),
      toMoney a t c dp ts p sym .before delim false =
        sym.getD (currencySymbolMap c) ++ delim ++ toMoney a t c dp ts p sym .before delim true ∧
      toMoney a t c dp ts p sym .after delim false =
        toMoney a t c dp ts p sym .after delim true ++ delim ++ sym.getD (currencySymbolMap c)) ∧
    toMoney 1500 .integerWithDecimals .usd "," " " .hideIfZero none .before "" false = "$15" ∧
    toMoney 1550 .integerWithDecimals .eur "," " " .hideIfZero none .after " " false = "15,50 €" :=
  ⟨fun _ _ _ _ _ _ _ _ => ⟨rfl, rfl⟩, by decide, by decide⟩

/-- Claim C8: an input that is non-numeric after the thousands-separator
strip and decimal-point normalization parses to `NaN`, and
`amountStringToIntegerWithDecimals` propagates it (it never defaults to 0),
as does `amountStringToFloatNumber`. -/
theorem nan_propagation (s : String)
    (h : parseFloatL (replaceFirstL [','] ['.'] (removeSubstrL [' '] s.toList)) = .nan) :
    amountStringToIntegerWithDecimalsCore s "," " " = .nan ∧
    amountStringToFloatNumberCore s "," " " = .nan := by
  unfold amountStringToFloatNumberCore amountStringToIntegerWithDecimalsCore
  rw [show (",").toList = [','] from rfl, show ((" ").toList) = [' '] from rfl, h]
  exact ⟨rfl, rfl⟩

/-- Witness for `nan_propagation` at the concrete input "abc". -/
theorem nan_propagation_witness :
    (parseFloatL (replaceFirstL [','] ['.'] (removeSubstrL [' '] ("abc").toList)) = .nan) ∧
    (amountStringToIntegerWithDecimalsCore "abc" "," " " = .nan ∧
      amountStringToFloatNumberCore "abc" "," " " = .nan) :=
  ⟨by decide, nan_propagation "abc" (by decide)⟩

theorem regexScan_ordinary {l : List Char}
    (h : ∀ c ∈ l, isRegexOrdinaryChar c = true) : regexScan l 0 false = true := by
  induction l with
  | nil => rfl
  | cons c r ih =>
    have hc := h c (List.mem_cons_self _ _)
    simp only [isRegexOrdinaryChar, Bool.not_eq_true', Bool.or_eq_false_iff,
      decide_eq_false_iff_not] at hc
    obtain ⟨⟨⟨⟨⟨⟨⟨⟨⟨⟨⟨⟨⟨h1, h2⟩, h3⟩, h4⟩, h5⟩, h6⟩, h7⟩, h8⟩, h9⟩, h10⟩, h11⟩, h12⟩, h13⟩,
      h14⟩ := hc
    rw [regexScan.eq_def]
    simp only [h1, h8, h9, h10, if_false, Bool.false_eq_true]
    exact ih (fun d hd => h d (List.mem_cons_of_mem _ hd))

/-- Claim C5 (amended): `integerWithDecimalsToAmountString`,
`floatNumberToAmountString` and `toMoney` are total for every separator
choice (they only use fixed literal regexes), and the two string-parsing
converters return a value for every input string and every
`thousandsSeparator` free of regex metacharacters; but they throw a
`SyntaxError` when `new RegExp(thousandsSeparator, 'g')` fails to compile,
e.g. for the malformed fragment "(" (see the counterexample). -/
theorem converters_return_for_ordinary_separators (s dp ts : String)
    (h : ∀ c ∈ ts.toList, isRegexOrdinaryChar c = true) :
    (∃ v, amountStringToIntegerWithDecimalsJS s dp ts = .ok v) ∧
    (∃ v, amountStringToFloatNumberJS s dp ts = .ok v) := by
  unfold amountStringToIntegerWithDecimalsJS amountStringToFloatNumberJS
  rw [show regexCompiles ts = true from regexScan_ordinary h]
  exact ⟨⟨_, rfl⟩, ⟨_, rfl⟩⟩

/-- Claim C5 (counterexample): with the malformed regex fragment "(" as
thousands separator, `new RegExp('(', 'g')` throws, so both string
converters throw instead of returning a value. -/
theorem converters_throw_on_paren :
    amountStringToIntegerWithDecimalsJS "5" "," "(" = .error () ∧
    amountStringToFloatNumberJS "5" "," "(" = .error () :=
  ⟨rfl, rfl⟩

/-- Witness for `converters_return_for_ordinary_separators` at the default
separators. -/
theorem converters_return_witness :
    (∀ c ∈ (" ").toList, isRegexOrdinaryChar c = true) ∧
    ((∃ v, amountStringToIntegerWithDecimalsJS "abc" "," " " = .ok v) ∧
      (∃ v, amountStringToFloatNumberJS "abc" "," " " = .ok v)) :=
  ⟨by decide, converters_return_for_ordinary_separators "abc" "," " " (by decide)⟩

/-- Claim C4: the range refinement of `zAmountRawLimited` compares
`parseFloat` of the raw string before the decimal comma is normalized, so
it checks only the integer part. The claimed concrete cases do hold —
`zAmountIntegerWithDecimalsLimited(0, 1000).parse` rejects "15,00" and
yields 500 on "5,00" — but the validator accepts "10,50" and yields 1050,
although the denoted value 10.50 = 1050/100 exceeds the bound
1000/100: the range `[min/100, max/100]` is not enforced. -/
theorem limited_range_not_enforced :
    zAmountIntegerWithDecimalsLimitedParse 0 1000 "15,00" = none ∧
    zAmountIntegerWithDecimalsLimitedParse 0 1000 "5,00" = some (.fin 500) ∧
    zAmountRawLimitedAccepts 0 1000 "10,50" = true ∧
    zAmountIntegerWithDecimalsLimitedParse 0 1000 "10,50" = some (.fin 1050) ∧
    ¬((1050 : ℚ) / 100 ≤ (1000 : ℚ) / 100) :=
  ⟨by decide, by decide, by decide, by decide, by norm_num⟩

theorem digit_not_ws {c : Char} (h : isDigitChar c = true) : isJsWs c = false := by
  simp only [isDigitChar, Bool.and_eq_true, decide_eq_true_eq] at h
  simp only [isJsWs, Bool.or_eq_false_iff, Bool.and_eq_false_iff,
    decide_eq_false_iff_not]
  omega

theorem digitChar_ne_space (d : Nat) : digitChar d ≠ ' ' := by
  unfold digitChar
  split <;> decide

theorem pad3_no_dot (r : Nat) : '.' ∉ pad3 r := by
  intro hc
  simp only [pad3, List.mem_cons, List.not_mem_nil, or_false] at hc
  rcases hc with h | h | h <;> exact digitChar_ne_dot _ h.symm

theorem pad3_no_space (r : Nat) : ' ' ∉ pad3 r := by
  intro hc
  simp only [pad3, List.mem_cons, List.not_mem_nil, or_false] at hc
  rcases hc with h | h | h <;> exact digitChar_ne_space _ h.symm

theorem twoDigL_no_space (f : Nat) : ' ' ∉ twoDigL f := by
  intro hc
  simp only [twoDigL, List.mem_cons, List.not_mem_nil, or_false] at hc
  rcases hc with h | h <;> exact digitChar_ne_space _ h.symm

theorem natDigits_split1000 {m : Nat} (h : 1000 ≤ m) :
    natDigits m = natDigits (m / 1000) ++ pad3 (m % 1000) := by
  rw [natDigits_eq m, if_neg (by omega),
    natDigits_eq (m / 10), if_neg (by omega),
    show m / 10 / 10 = m / 100 from by omega,
    natDigits_eq (m / 100), if_neg (by omega),
    show m / 100 / 10 = m / 1000 from by omega,
    show m / 100 % 10 = m % 1000 / 100 from by omega,
    show m / 10 % 10 = m % 1000 / 10 % 10 from by omega,
    show m % 10 = m % 1000 % 10 from by omega]
  simp [pad3, List.append_assoc]

/-- Substituting the group separators of `groupThousands m` by spaces and
then deleting the spaces recovers the plain digits of `m`. -/
theorem strip_spaced_group (m : Nat) :
    removeSubstrGo [' '] (replaceAllCharL '.' [' '] (groupThousands m)) = natDigits m := by
  induction m using Nat.strong_induction_on with
  | _ m ih =>
    rw [groupThousands_eq]
    split
    · next h =>
      rw [replaceAllCharL_of_not_mem (natDigits_no_dot m),
        removeSubstrGo_single_of_not_mem (natDigits_no_space m)]
    · next h =>
      rw [replaceAllCharL_append, removeSubstrGo_single_append, ih (m / 1000) (by omega)]
      have hdot : replaceAllCharL '.' [' '] ('.' :: pad3 (m % 1000)) = ' ' :: pad3 (m % 1000) := by
        show (if '.' = '.' then [' '] else ['.']) ++ replaceAllCharL '.' [' '] (pad3 (m % 1000)) =
          ' ' :: pad3 (m % 1000)
        rw [if_pos rfl, replaceAllCharL_of_not_mem (pad3_no_dot (m % 1000))]
        rfl
      rw [hdot, removeSubstrGo_single_cons, if_pos rfl,
        removeSubstrGo_single_of_not_mem (pad3_no_space (m % 1000)),
        ← natDigits_split1000 (by omega)]

theorem digit_ne_big_i {c : Char} (h : isDigitChar c = true) : c ≠ 'I' := by
  intro he
  rw [he] at h
  exact absurd h (by decide)

theorem digit_ne_plus {c : Char} (h : isDigitChar c = true) : c ≠ '+' := by
  intro he
  rw [he] at h
  exact absurd h (by decide)

theorem digit_ne_minus {c : Char} (h : isDigitChar c = true) : c ≠ '-' := by
  intro he
  rw [he] at h
  exact absurd h (by decide)

theorem infinityLead_cons_digit {c : Char} (h : isDigitChar c = true) (r : List Char) :
    infinityLead (c :: r) = false := by
  unfold infinityLead
  apply decide_eq_false
  intro heq
  rw [List.take_succ_cons] at heq
  exact digit_ne_big_i h (List.cons.injEq .. ▸ heq).1

theorem natDigits_isEmpty_false (m : Nat) : (natDigits m).isEmpty = false := by
  cases hnd : natDigits m with
  | nil => exact absurd hnd (natDigits_ne_nil m)
  | cons c t => rfl

/-- `parseFloat` (after the sign) of the canonical rendering
"digits of m, '.', two fraction digits" evaluates to the exact value. -/
theorem parseFloatUnsigned_canonical (m : Nat) (ds : List Char)
    (hds : ∀ c ∈ ds, isDigitChar c = true) :
    parseFloatUnsigned (natDigits m ++ '.' :: ds) =
      .fin ((m : ℚ) + (digitsVal ds : ℚ) / (10 : ℚ) ^ ds.length) := by
  have hall := natDigits_all_digit m
  have htake : (natDigits m ++ '.' :: ds).takeWhile isDigitChar = natDigits m := by
    rw [takeWhile_append_all hall, List.takeWhile_cons,
      if_neg (by decide : ¬(isDigitChar '.' = true)), List.append_nil]
  have hdrop : (natDigits m ++ '.' :: ds).dropWhile isDigitChar = '.' :: ds := by
    rw [dropWhile_append_all hall, List.dropWhile_cons,
      if_neg (by decide : ¬(isDigitChar '.' = true))]
  have hinf : infinityLead (natDigits m ++ '.' :: ds) = false := by
    cases hnd : natDigits m with
    | nil => exact absurd hnd (natDigits_ne_nil m)
    | cons c t =>
      rw [List.cons_append]
      exact infinityLead_cons_digit (hall c (hnd ▸ List.mem_cons_self c t)) _
  unfold parseFloatUnsigned
  rw [hinf, htake, hdrop]
  simp only [Bool.false_eq_true, if_false, List.head?_cons, List.tail_cons,
    if_pos rfl, natDigits_isEmpty_false, Bool.false_and]
  rw [takeWhile_all hds, dropWhile_all hds, if_pos trivial, if_pos trivial,
    show parseExp ([] : List Char) = 0 from rfl, decimalValue_eq, digitsVal_natDigits]
  norm_num

theorem parseFloatL_cons_digit {c : Char} (hc : isDigitChar c = true) (r : List Char) :
    parseFloatL (c :: r) = parseFloatUnsigned (c :: r) := by
  have h1 : isJsWs c = false := digit_not_ws hc
  have h2 : ¬c = '+' := digit_ne_plus hc
  have h3 : ¬c = '-' := digit_ne_minus hc
  simp [parseFloatL, List.dropWhile_cons, h1, h2, h3]

theorem parseFloatL_cons_minus (r : List Char) :
    parseFloatL ('-' :: r) = (parseFloatUnsigned r).neg := by
  simp [parseFloatL, List.dropWhile_cons, (by decide : isJsWs '-' = false)]

theorem twoDigL_all_digit (f : Nat) (hf : f < 100) :
    ∀ c ∈ twoDigL f, isDigitChar c = true := by
  intro c hc
  simp only [twoDigL, List.mem_cons, List.not_mem_nil, or_false] at hc
  rcases hc with h | h <;> (rw [h]; exact digitChar_isDigit (by omega))

theorem parseFloatL_natDigits_frac (m : Nat) (ds : List Char)
    (hds : ∀ c ∈ ds, isDigitChar c = true) :
    parseFloatL (natDigits m ++ '.' :: ds) =
      .fin ((m : ℚ) + (digitsVal ds : ℚ) / (10 : ℚ) ^ ds.length) := by
  cases hnd : natDigits m with
  | nil => exact absurd hnd (natDigits_ne_nil m)
  | cons c t =>
    have hc : isDigitChar c = true := natDigits_all_digit m c (hnd ▸ List.mem_cons_self c t)
    rw [List.cons_append, parseFloatL_cons_digit hc, ← List.cons_append, ← hnd,
      parseFloatUnsigned_canonical m ds hds]

theorem parseFloatL_neg_natDigits_frac (m : Nat) (ds : List Char)
    (hds : ∀ c ∈ ds, isDigitChar c = true) :
    parseFloatL ('-' :: (natDigits m ++ '.' :: ds)) =
      .fin (-((m : ℚ) + (digitsVal ds : ℚ) / (10 : ℚ) ^ ds.length)) := by
  rw [parseFloatL_cons_minus, parseFloatUnsigned_canonical m ds hds]
  rfl

theorem roundtrip_value_pos (i f : Nat) (hf : f < 100) :
    ((JsVal.fin ((i : ℚ) + (digitsVal (twoDigL f) : ℚ) /
        (10 : ℚ) ^ (twoDigL f).length)).times100).roundJs =
      .fin (((100 * i + f : ℕ) : ℤ) : ℚ) := by
  rw [digitsVal_twoDigL hf, show (twoDigL f).length = 2 from rfl, times100_fin]
  have hx : ((i : ℚ) + (f : ℚ) / (10 : ℚ) ^ (2 : ℕ)) * 100 = (((100 * i + f : ℕ) : ℤ) : ℚ) := by
    push_cast
    field_simp
    ring
  rw [hx, show (JsVal.fin ((((100 * i + f : ℕ) : ℤ)) : ℚ)).roundJs =
      JsVal.fin ((jsRound ((((100 * i + f : ℕ) : ℤ)) : ℚ) : ℤ) : ℚ) from rfl,
    jsRound_int_add_half]

theorem roundtrip_value_neg (i f : Nat) (hf : f < 100) :
    ((JsVal.fin (-((i : ℚ) + (digitsVal (twoDigL f) : ℚ) /
        (10 : ℚ) ^ (twoDigL f).length))).times100).roundJs =
      .fin (((-(100 * i + f : ℕ) : ℤ) : ℚ)) := by
  rw [digitsVal_twoDigL hf, show (twoDigL f).length = 2 from rfl, times100_fin]
  have hx : (-((i : ℚ) + (f : ℚ) / (10 : ℚ) ^ (2 : ℕ))) * 100 =
      (((-(100 * i + f : ℕ) : ℤ)) : ℚ) := by
    push_cast
    field_simp
    ring
  rw [hx, show (JsVal.fin ((((-(100 * i + f : ℕ) : ℤ))) : ℚ)).roundJs =
      JsVal.fin ((jsRound ((((-(100 * i + f : ℕ) : ℤ))) : ℚ) : ℤ) : ℚ) from rfl,
    jsRound_int_add_half]

/-- Claim C1: for every integer amount, parsing the `showAlways`-formatted
string under the factory default separators (decimal point ',', thousands
separator ' ') recovers the amount exactly:
`amountStringToIntegerWithDecimals(integerWithDecimalsToAmountString({amount: n,
decimalPolicy: 'showAlways'})) = n`. -/
theorem amountString_roundtrip (n : Int) :
    amountStringToIntegerWithDecimalsCore
      (integerWithDecimalsToAmountString n "," " " .showAlways) "," " " = .fin (n : ℚ) := by
  have hf100 : n.natAbs % 100 < 100 := Nat.mod_lt _ (by norm_num)
  have hfmt : (integerWithDecimalsToAmountString n "," " " .showAlways).toList =
      (signL n ++ replaceAllCharL '.' [' '] (groupThousands (n.natAbs / 100))) ++
        ',' :: twoDigL (n.natAbs % 100) := by
    unfold integerWithDecimalsToAmountString integerWithDecimalsToAmountStringL
    rw [show (",").toList = [','] from rfl, show ((" ").toList) = [' '] from rfl,
      applyPolicy_showAlways, replaceAllCharL_self, replaceAllCharL_append,
      replaceAllCharL_append,
      replaceAllCharL_of_not_mem (signL_no_dot n),
      replaceAllCharL_of_not_mem (comma_twoDigL_no_dot _)]
    rfl
  have hstrip : removeSubstrL [' ']
      ((integerWithDecimalsToAmountString n "," " " .showAlways).toList) =
      (signL n ++ natDigits (n.natAbs / 100)) ++ ',' :: twoDigL (n.natAbs % 100) := by
    rw [hfmt, show removeSubstrL [' '] (((signL n ++
        replaceAllCharL '.' [' '] (groupThousands (n.natAbs / 100))) ++
        ',' :: twoDigL (n.natAbs % 100))) = removeSubstrGo [' '] (((signL n ++
        replaceAllCharL '.' [' '] (groupThousands (n.natAbs / 100))) ++
        ',' :: twoDigL (n.natAbs % 100))) from rfl,
      removeSubstrGo_single_append, removeSubstrGo_single_append,
      removeSubstrGo_single_of_not_mem (signL_no_space n),
      strip_spaced_group, removeSubstrGo_single_cons,
      if_neg (by decide : ¬(',' = ' ')),
      removeSubstrGo_single_of_not_mem (twoDigL_no_space _)]
  have hcomma : ',' ∉ signL n ++ natDigits (n.natAbs / 100) := by
    intro hc
    rcases List.mem_append.1 hc with h | h
    · exact signL_not_mem_comma n h
    · exact natDigits_no_comma _ h
  have hrepl : replaceFirstL [','] ['.']
      ((signL n ++ natDigits (n.natAbs / 100)) ++ ',' :: twoDigL (n.natAbs % 100)) =
      (signL n ++ natDigits (n.natAbs / 100)) ++ '.' :: twoDigL (n.natAbs % 100) := by
    rw [show replaceFirstL [','] ['.'] (((signL n ++ natDigits (n.natAbs / 100)) ++
        ',' :: twoDigL (n.natAbs % 100))) = replaceFirstGo [','] ['.']
        (((signL n ++ natDigits (n.natAbs / 100)) ++
        ',' :: twoDigL (n.natAbs % 100))) from rfl,
      replaceFirstGo_single_append hcomma]
    simp [List.append_assoc]
  unfold amountStringToIntegerWithDecimalsCore
  rw [show (",").toList = [','] from rfl, show ((" ").toList) = [' '] from rfl,
    hstrip, hrepl]
  rcases le_or_lt 0 n with hn | hn
  · have hsign : signL n = [] := by
      unfold signL
      rw [if_neg (by omega)]
    rw [hsign, List.nil_append, parseFloatL_natDigits_frac _ _ (twoDigL_all_digit _ hf100),
      roundtrip_value_pos _ _ hf100]
    congr 1
    have h1 : ((100 * (n.natAbs / 100) + n.natAbs % 100 : ℕ) : ℤ) = n := by
      have := Int.natAbs_of_nonneg hn
      omega
    rw [h1]
  · have hsign : signL n = ['-'] := by
      unfold signL
      rw [if_pos (by omega)]
    rw [hsign, show (['-'] ++ natDigits (n.natAbs / 100)) ++
        '.' :: twoDigL (n.natAbs % 100) =
        '-' :: (natDigits (n.natAbs / 100) ++ '.' :: twoDigL (n.natAbs % 100)) from by
        simp,
      parseFloatL_neg_natDigits_frac _ _ (twoDigL_all_digit _ hf100)]
    rw [roundtrip_value_neg _ _ hf100]
    congr 1
    have h1 : (-(100 * (n.natAbs / 100) + n.natAbs % 100 : ℕ) : ℤ) = n := by omega
    rw [h1]

/-- Shape of the optional fractional tail `(,\d{0,2})?$`: nothing, or the
decimal point followed by at most two digits. -/
def TailShape (t : List Char) : Prop :=
  t = [] ∨ ∃ ds, t = ',' :: ds ∧ (∀ x ∈ ds, isDigitChar x = true) ∧ ds.length ≤ 2

/-- Declarative reading of the validator pattern: optional leading
whitespace, a digit, digit groups optionally interspersed with whitespace,
then the optional fractional tail. -/
def AmountShape (s : String) : Prop :=
  ∃ w c m t, s.toList = w ++ c :: (m ++ t) ∧ (∀ x ∈ w, isJsWs x = true) ∧
    isDigitChar c = true ∧ (∀ x ∈ m, isJsWs x = true ∨ isDigitChar x = true) ∧ TailShape t

theorem matchAmountTail_iff (l : List Char) :
    matchAmountTail l = true ↔
      ∃ m t, l = m ++ t ∧ (∀ x ∈ m, isJsWs x = true ∨ isDigitChar x = true) ∧ TailShape t := by
  induction l with
  | nil =>
    constructor
    · intro _
      exact ⟨[], [], rfl, by simp, Or.inl rfl⟩
    · intro _
      rfl
  | cons c cs ih =>
    by_cases hwd : (isJsWs c || isDigitChar c) = true
    · rw [show matchAmountTail (c :: cs) = matchAmountTail cs from by
        simp [matchAmountTail, hwd], ih]
      constructor
      · rintro ⟨m, t, heq, hm, ht⟩
        refine ⟨c :: m, t, by rw [List.cons_append, heq], ?_, ht⟩
        intro x hx
        rcases List.mem_cons.1 hx with h | h
        · subst h
          exact Bool.or_eq_true _ _ ▸ hwd
        · exact hm x h
      · rintro ⟨m, t, heq, hm, ht⟩
        cases m with
        | nil =>
          rw [List.nil_append] at heq
          rcases ht with h0 | ⟨ds, hds, _, _⟩
          · rw [h0] at heq
            exact absurd heq (by simp)
          · rw [hds] at heq
            have hc : c = ',' := (List.cons.inj heq).1
            rw [hc] at hwd
            exact absurd hwd (by decide)
        | cons c' m' =>
          rw [List.cons_append] at heq
          have h1 := (List.cons.inj heq).1
          have h2 := (List.cons.inj heq).2
          exact ⟨m', t, h2, fun x hx => hm x (List.mem_cons_of_mem _ hx), ht⟩
    · by_cases hc : c = ','
      · subst hc
        rw [show matchAmountTail (',' :: cs) =
            (cs.all isDigitChar && decide (cs.length ≤ 2)) from by
          simp [matchAmountTail, hwd]]
        constructor
        · intro h
          rw [Bool.and_eq_true, List.all_eq_true, decide_eq_true_eq] at h
          exact ⟨[], ',' :: cs, rfl, by simp, Or.inr ⟨cs, rfl, h.1, h.2⟩⟩
        · rintro ⟨m, t, heq, hm, ht⟩
          cases m with
          | nil =>
            rw [List.nil_append] at heq
            rcases ht with h0 | ⟨ds, hds, hall, hlen⟩
            · rw [h0] at heq
              exact absurd heq (by simp)
            · rw [hds] at heq
              have h2 := (List.cons.inj heq).2
              subst h2
              rw [Bool.and_eq_true, List.all_eq_true, decide_eq_true_eq]
              exact ⟨hall, hlen⟩
          | cons c' m' =>
            rw [List.cons_append] at heq
            have h1 := (List.cons.inj heq).1
            have := hm c' (List.mem_cons_self _ _)
            rw [← h1] at this
            rcases this with h | h
            · rw [show isJsWs ',' = false from by decide] at h
              exact absurd h (by simp)
            · rw [show isDigitChar ',' = false from by decide] at h
              exact absurd h (by simp)
      · rw [show matchAmountTail (c :: cs) = false from by simp [matchAmountTail, hwd, hc]]
        simp only [Bool.false_eq_true, false_iff]
        rintro ⟨m, t, heq, hm, ht⟩
        cases m with
        | nil =>
          rw [List.nil_append] at heq
          rcases ht with h0 | ⟨ds, hds, _, _⟩
          · rw [h0] at heq
            exact absurd heq (by simp)
          · rw [hds] at heq
            exact hc (List.cons.inj heq).1
        | cons c' m' =>
          rw [List.cons_append] at heq
          have h1 := (List.cons.inj heq).1
          have := hm c' (List.mem_cons_self _ _)
          rw [← h1] at this
          rcases this with h | h
          · rw [show (isJsWs c || isDigitChar c) = true from by rw [h]; simp] at hwd
            exact hwd rfl
          · rw [show (isJsWs c || isDigitChar c) = true from by rw [h]; simp] at hwd
            exact hwd rfl

theorem mem_takeWhile_pred {p : Char → Bool} {l : List Char} :
    ∀ x ∈ l.takeWhile p, p x = true := by
  induction l with
  | nil => simp
  | cons c cs ih =>
    rw [List.takeWhile_cons]
    split
    · next h =>
      intro x hx
      rcases List.mem_cons.1 hx with h1 | h1
      · rw [h1]
        exact h
      · exact ih x h1
    · simp

theorem amountStringRegexMatches_iff (s : String) :
    amountStringRegexMatches s = true ↔ AmountShape s := by
  unfold amountStringRegexMatches AmountShape
  cases hd : s.toList.dropWhile isJsWs with
  | nil =>
    simp only [Bool.false_eq_true, false_iff]
    rintro ⟨w, c, m, t, heq, hw, hc, _, _⟩
    rw [heq, dropWhile_append_all hw, List.dropWhile_cons,
      if_neg (by simp [digit_not_ws hc])] at hd
    exact absurd hd (by simp)
  | cons c cs =>
    constructor
    · intro h
      rw [Bool.and_eq_true] at h
      obtain ⟨m, t, heq, hm, ht⟩ := (matchAmountTail_iff cs).1 h.2
      refine ⟨s.toList.takeWhile isJsWs, c, m, t, ?_, mem_takeWhile_pred, h.1, hm, ht⟩
      rw [← heq, ← hd, List.takeWhile_append_dropWhile]
    · rintro ⟨w, c', m, t, heq, hw, hc', hm, ht⟩
      have hdw : s.toList.dropWhile isJsWs = c' :: (m ++ t) := by
        rw [heq, dropWhile_append_all hw, List.dropWhile_cons,
          if_neg (by simp [digit_not_ws hc'])]
      rw [hd] at hdw
      have h1 := (List.cons.inj hdw).1
      have h2 := (List.cons.inj hdw).2
      rw [Bool.and_eq_true]
      exact ⟨by rw [h1]; exact hc', (matchAmountTail_iff cs).2 ⟨m, t, h2, hm, ht⟩⟩

/-- The non-negativity refinement of `zAmountRaw`, read declaratively:
`parseFloat` of the whitespace-stripped string is a non-negative number
(or `Infinity`), never `NaN` or negative. -/
def RefineNonneg (s : String) : Prop :=
  match parseFloatL (s.toList.filter (fun c => !(isJsWs c))) with
  | .fin q => 0 ≤ q
  | .posInf => True
  | _ => False

theorem space_not_mem_filtered (s : String) :
    ' ' ∉ s.toList.filter (fun c => !(isJsWs c)) := by
  intro h
  have := (List.mem_filter.1 h).2
  rw [show isJsWs ' ' = true from by decide] at this
  exact absurd this (by simp)

theorem zAmountRawRefine_iff (s : String) :
    zAmountRawRefine s = true ↔ RefineNonneg s := by
  unfold zAmountRawRefine RefineNonneg
  rw [show replaceFirstL [' '] []
      (s.toList.filter (fun c => !(isJsWs c))) = replaceFirstGo [' '] []
      (s.toList.filter (fun c => !(isJsWs c))) from rfl,
    replaceFirstGo_of_not_mem (space_not_mem_filtered s)]
  cases parseFloatL (s.toList.filter (fun c => !(isJsWs c))) <;> simp

/-- Claim C6: with the default configuration, `zAmountRaw` accepts exactly
the strings of the shape "optional leading whitespace, digit groups
optionally interspersed with whitespace, optionally a ',' and at most two
digits" whose whitespace-stripped value parses as a non-negative number;
in particular it rejects "-5" and "12,345", and accepts "12,34". -/
theorem zAmountRaw_characterization :
    zAmountRawAccepts "-5" = false ∧
    zAmountRawAccepts "12,345" = false ∧
    zAmountRawAccepts "12,34" = true ∧
    ∀ s : String, zAmountRawAccepts s = true ↔ (AmountShape s ∧ RefineNonneg s) := by
  refine ⟨by decide, by decide, by decide, ?_⟩
  intro s
  unfold zAmountRawAccepts
  rw [Bool.and_eq_true]
  exact and_congr (amountStringRegexMatches_iff s) (zAmountRawRefine_iff s)

theorem floor_centfrac {f : Nat} (hf : f < 50) : ⌊((f : ℚ) / 100 + 1 / 2)⌋ = 0 := by
  rw [Int.floor_eq_zero_iff, Set.mem_Ico]
  have h1 : (f : ℚ) < 50 := by exact_mod_cast hf
  have h2 : (f : ℚ) / 100 < 1 / 2 := by
    rw [div_lt_iff₀ (by norm_num : (0 : ℚ) < 100)]
    linarith
  constructor
  · positivity
  · linarith

theorem jsRound_cents {n : Int} (hn : 0 ≤ n) (hf : n.natAbs % 100 < 50) :
    jsRound ((n : ℚ) / 100) = ((n.natAbs / 100 : ℕ) : ℤ) := by
  rw [jsRound_def]
  have hn' : (n.natAbs : ℤ) = n := Int.natAbs_of_nonneg hn
  have hsplit : (n : ℚ) = 100 * ((n.natAbs / 100 : ℕ) : ℚ) + ((n.natAbs % 100 : ℕ) : ℚ) := by
    have h2 : ((n.natAbs : ℕ) : ℚ) = (n : ℚ) := by
      conv_rhs => rw [← hn']
      rw [Int.cast_natCast]
    rw [← h2]
    exact_mod_cast (by omega : n.natAbs = 100 * (n.natAbs / 100) + n.natAbs % 100)
  rw [hsplit]
  have hre : ∀ X Y : ℕ, (100 * (X : ℚ) + (Y : ℚ)) / 100 + 1 / 2 =
      ((X : ℤ) : ℚ) + ((Y : ℚ) / 100 + 1 / 2) := by
    intro X Y
    push_cast
    field_simp
    ring
  rw [hre, Int.floor_int_add, floor_centfrac hf, add_zero]

theorem toLocaleDECents_mul100 (i : ℕ) :
    toLocaleDECents (100 * (i : ℤ)) = groupThousands i := by
  unfold toLocaleDECents signL decPartL
  have h1 : (100 * (i : ℤ)).natAbs = 100 * i := by omega
  rw [h1, if_neg (by omega : ¬(100 * (i : ℤ) < 0)),
    show 100 * i / 100 = i from by omega, show 100 * i % 100 = 0 from by omega,
    if_pos rfl]
  simp

/-- Claim C10 (amended): the two shipped revisions of
`integerWithDecimalsToAmountString` are NOT equivalent; under the default
separators they do agree, for every policy, on every non-negative amount
whose cent fraction has a non-zero last digit (so the old revision's
trailing-zero-trimming localization prints both fraction digits) and is
below 50 (so the old revision's `hideAlways` rounding coincides with the
new revision's truncation). -/
theorem old_new_agree (n : Int) (hn : 0 ≤ n) (h10 : n.natAbs % 100 % 10 ≠ 0)
    (h50 : n.natAbs % 100 < 50) (p : DecimalPolicy) :
    integerWithDecimalsToAmountStringOld n "," " " p =
      integerWithDecimalsToAmountString n "," " " p := by
  have hf0 : n.natAbs % 100 ≠ 0 := by omega
  have hdec : decPartL (n.natAbs % 100) = ',' :: twoDigL (n.natAbs % 100) := by
    rw [decPartL, if_neg hf0, if_neg h10]
  have hsign : signL n = [] := by
    unfold signL
    rw [if_neg (by omega)]
  unfold integerWithDecimalsToAmountStringOld integerWithDecimalsToAmountStringOldL
    integerWithDecimalsToAmountString integerWithDecimalsToAmountStringL oldRenderPipeline
  cases p with
  | showAlways =>
    rw [applyPolicy_showAlways, toLocaleDECents_split, hdec, hsign]
    simp
  | hideIfZero =>
    rw [show (!(n.natAbs % 100 == 0)) = true from by simp [hf0]]
    rw [applyPolicy_hideIfZero, if_neg hf0, toLocaleDECents_split, hdec, hsign]
    simp
  | hideAlways =>
    have hq0 : ¬((n : ℚ) / 100 < 0) := by
      push_neg
      have : (0 : ℚ) ≤ (n : ℚ) := by exact_mod_cast hn
      positivity
    rw [show decide ((n : ℚ) / 100 < 0) = false from decide_eq_false hq0]
    simp only [Bool.false_and]
    rw [jsRound_cents hn h50, toLocaleDECents_mul100, applyPolicy_hideAlways, hsign]
    simp

/-- Claim C10 (counterexample): the revisions disagree at amount 550 with
the `hideIfZero` policy under the default separators — the earlier revision
trims the trailing zero ("5,5"), the current one pads to two digits
("5,50"). -/
theorem old_new_differ_at_550 :
    integerWithDecimalsToAmountStringOld 550 "," " " .hideIfZero ≠
      integerWithDecimalsToAmountString 550 "," " " .hideIfZero ∧
    integerWithDecimalsToAmountStringOld 550 "," " " .hideIfZero = "5,5" ∧
    integerWithDecimalsToAmountString 550 "," " " .hideIfZero = "5,50" :=
  ⟨by decide, by decide, by decide⟩

/-- Witness for `old_new_agree` at the concrete amount 123. -/
theorem old_new_agree_witness :
    (0 ≤ (123 : ℤ)) ∧ (123 : ℤ).natAbs % 100 % 10 ≠ 0 ∧ (123 : ℤ).natAbs % 100 < 50 ∧
    integerWithDecimalsToAmountStringOld 123 "," " " .hideIfZero =
      integerWithDecimalsToAmountString 123 "," " " .hideIfZero :=
  ⟨by decide, by decide, by decide,
    old_new_agree 123 (by decide) (by decide) (by decide) .hideIfZero⟩
